import Mathlib

/-!
# Verification of the repobase indexing / synchronization engine

Shallow embedding of the core of the repobase engine:

* the Indexer service (`packages/engine/src/services/Indexer.ts`):
  full-scope ingestion (`indexRepo`), changed-scope ingestion
  (`indexChanges`), the three search operations (`searchKeyword`,
  `searchSemantic`, `searchHybrid`), ranged reads (`readFile`),
  regex grep (`grepPattern`) and path validation (`validatePath`);
* the RepobaseEngine service (`RepobaseEngine.ts`): `syncRepo` and
  `syncAll`.

External collaborators (LanceDB queries, the embedding model, SHA-256,
UTF-8 decoding, the JS regex engine, the filesystem) are modelled as
explicit function parameters; everything the repository's own code does is
translated directly.  JS `Array`/`String` primitives used by the code
(`slice`, `split`, `padStart`, `includes`, `Map` get/keys) are embedded
with their JS semantics.
-/

namespace Repobase

/-! ## JS primitives -/

/-- JS `haystack.includes(needle)` on the underlying character lists:
`true` iff `pat` occurs as a contiguous substring. -/
def containsAux (pat : List Char) : List Char → Bool
  | [] => pat.isPrefixOf []
  | c :: rest => pat.isPrefixOf (c :: rest) || containsAux pat rest

/-- JS `String.prototype.includes`. -/
def containsSub (s pat : String) : Bool :=
  containsAux pat.data s.data

/-- JS `Array.prototype.slice(start, end)` with signed indices:
negative indices count from the end, both are clamped to `[0, length]`,
and the extracted window is `[start', end')`. -/
def jsSlice {α : Type} (l : List α) (s e : Int) : List α :=
  let len : Int := l.length
  let s' : Int := if s < 0 then max (len + s) 0 else min s len
  let e' : Int := if e < 0 then max (len + e) 0 else min e len
  (l.take e'.toNat).drop s'.toNat

/-- JS `string.split(sep)` for a one-character separator
(structurally recursive splitter). -/
def splitCharAux (sep : Char) : List Char → List Char → List String
  | [], acc => [String.mk acc.reverse]
  | c :: rest, acc =>
    if c = sep then String.mk acc.reverse :: splitCharAux sep rest []
    else splitCharAux sep rest (c :: acc)

/-- JS `string.split(sep)` for a one-character separator. -/
def jsSplitChar (sep : Char) (s : String) : List String :=
  splitCharAux sep s.data []

/-- JS `string.split("\n")`. -/
def splitLinesJS (content : String) : List String :=
  jsSplitChar '\n' content

/-- JS `String.prototype.startsWith` (on the character lists). -/
def jsStartsWith (s pre : String) : Bool :=
  pre.data.isPrefixOf s.data

/-- JS `String.prototype.endsWith` (on the character lists). -/
def jsEndsWith (s post : String) : Bool :=
  post.data.isSuffixOf s.data

/-- JS `String.prototype.toLowerCase` (ASCII case mapping). -/
def jsToLower (s : String) : String :=
  String.mk (s.data.map Char.toLower)

/-- JS `String(n).padStart(width)` (pad with spaces on the left). -/
def padStart (s : String) (width : Nat) : String :=
  String.mk (List.replicate (width - s.length) ' ') ++ s

/-- JS `Map` built from an association list by successive `set` calls:
`get k` returns the value of the *last* entry with key `k`. -/
def jsMapGet (m : List (String × String)) (k : String) : Option String :=
  (m.reverse.find? (fun p => p.1 == k)).map (fun p => p.2)

/-- JS `Map.keys()` of the same map: keys in first-insertion order,
without duplicates. -/
def jsMapKeys (m : List (String × String)) : List String :=
  (m.map (fun p => p.1)).dedup

/-! ## Error types (`packages/engine/src/errors.ts`) -/

/-- `IndexError { operation, message }`. -/
structure IndexError where
  operation : String
  message : String
  deriving DecidableEq, Repr

/-- `SearchError { message }`. -/
structure SearchError where
  message : String
  deriving DecidableEq, Repr

/-- `FileNotFoundError { repo, path }`. -/
structure FileNotFoundError where
  repo : String
  path : String
  deriving DecidableEq, Repr

/-- `InvalidPatternError { pattern, message }`. -/
structure InvalidPatternError where
  pattern : String
  message : String
  deriving DecidableEq, Repr

/-- Error channel of the content operations (`readFile`): the TS
signature is `IndexError | FileNotFoundError`. -/
inductive ReadError where
  | indexErr (e : IndexError)
  | notFound (e : FileNotFoundError)
  deriving DecidableEq, Repr

/-- Error channel of `grepPattern`: `IndexError | InvalidPatternError`. -/
inductive GrepError where
  | indexErr (e : IndexError)
  | invalidPattern (e : InvalidPatternError)
  deriving DecidableEq, Repr

/-! ## The files table

One LanceDB record per indexed file.  The record's `id` column is always
`"<repo>:<path>"`; the composite identity `(repo, path)` is modelled
directly, so a delete on `id = '<repo>:<path>'` is a delete on the pair. -/

/-- One row of the `files` table. -/
structure FileRecord where
  repo : String
  path : String
  filename : String
  contents : String
  mtimeMs : Int
  sizeBytes : Nat
  hash : String
  vector : List Int
  deriving DecidableEq, Repr

/-- The `files` table, in physical row order (LanceDB `add` appends). -/
abbrev FilesTable : Type := List FileRecord

/-! ## validatePath (Indexer.ts) -/

/-- The boolean test of `validatePath`:
`filePath.includes("..") || filePath.startsWith("/")`. -/
def pathRejected (filePath : String) : Bool :=
  containsSub filePath ".." || jsStartsWith filePath "/"

/-- `validatePath(filePath)`: fails with an `IndexError` when the path
contains `".."` or starts with `"/"`. -/
def validatePath (filePath : String) : Except IndexError Unit :=
  if pathRejected filePath then
    .error ⟨"validatePath", "Invalid path: " ++ filePath⟩
  else
    .ok ()

/-! ## readFile (Indexer.ts)

The filesystem is a parameter `fsRead : repo → path → Option content`;
the absolute path read by the code is `<reposDir>/<repo>/<path>`, so it is
determined by the pair.  `none` models a failing `fs.readFileString`. -/

/-- `ReadFileOptions { offset?, limit?, lineNumbers? }`. -/
structure ReadFileOptions where
  offset : Option Int := none
  limit : Option Int := none
  lineNumbers : Option Bool := none
  deriving DecidableEq, Repr

/-- `FileContent`: the result of `readFile`. -/
structure FileContent where
  repo : String
  path : String
  content : String
  totalLines : Nat
  startLine : Int
  endLine : Int
  deriving DecidableEq, Repr

/-- Render the selected lines exactly as `readFile` does: with line
numbers (unless `lineNumbers === false`), each line prefixed by its
1-based number right-padded to width 6 and a `|`. -/
def renderLines (selected : List String) (startLine : Int) (numbered : Bool) : String :=
  if numbered then
    String.intercalate "\n"
      (selected.enum.map (fun p => padStart (toString (startLine + p.1)) 6 ++ "|" ++ p.2))
  else
    String.intercalate "\n" selected

/-- `readFile(repo, filePath, options)`: validate the path, verify the
file is indexed, read the live file, and return the requested line
range. -/
def readFile (tbl : FilesTable) (fsRead : String → String → Option String)
    (repo filePath : String) (opts : ReadFileOptions) :
    Except ReadError FileContent :=
  match validatePath filePath with
  | .error e => .error (.indexErr e)
  | .ok () =>
    if tbl.any (fun r => r.repo == repo && r.path == filePath) then
      match fsRead repo filePath with
      | none => .error (.notFound ⟨repo, filePath⟩)
      | some content =>
        let lines := splitLinesJS content
        let totalLines := lines.length
        let offset : Int := max 1 (opts.offset.getD 1)
        let lim : Int := opts.limit.getD totalLines
        let startLine : Int := offset
        let endLine : Int := min (totalLines : Int) (offset + lim - 1)
        let selected := jsSlice lines (startLine - 1) endLine
        .ok ⟨repo, filePath,
          renderLines selected startLine (opts.lineNumbers != some false),
          totalLines, startLine, endLine⟩
    else
      .error (.notFound ⟨repo, filePath⟩)

/-! ## grepPattern (Indexer.ts)

The JS regex engine is a parameter
`compile : pattern → ignoreCase → Except message lineTest`: a
syntactically invalid pattern yields `.error message` (the `new RegExp`
constructor throwing), a valid one a per-line test (`regex.test` with
`lastIndex` reset after every call is a pure predicate). -/

/-- `Number.MAX_SAFE_INTEGER`. -/
def maxSafeInteger : Int := 9007199254740991

/-- `GrepOptions`. -/
structure GrepOptions where
  repo : Option String := none
  ignoreCase : Bool := false
  contextBefore : Option Int := none
  contextAfter : Option Int := none
  filesWithMatches : Bool := false
  count : Bool := false
  fileType : Option String := none
  limit : Option Int := none
  deriving DecidableEq, Repr

/-- `GrepMatch { lineNumber, content, isMatch }`. -/
structure GrepMatch where
  lineNumber : Nat
  content : String
  isMatch : Bool
  deriving DecidableEq, Repr

/-- `GrepResult { repo, path, matches, matchCount }`. -/
structure GrepResult where
  repo : String
  path : String
  «matches» : List GrepMatch
  matchCount : Nat
  deriving DecidableEq, Repr

/-- The `matchingLineNums` set of one file: the 0-based indices of the
lines on which `regex.test` fires, in ascending order. -/
def grepFileLines (test : String → Bool) (content : String) : List Nat :=
  (List.range (splitLinesJS content).length).filter
    (fun i => test ((splitLinesJS content).getD i ""))

/-- The `linesToShow` set of one file: the sorted, deduplicated union of
`[max 0 (m - contextBefore), min (len - 1) (m + contextAfter)]` over the
matching lines `m`. -/
def grepShowLines (test : String → Bool) (content : String) (cb ca : Int) : List Nat :=
  (List.range (splitLinesJS content).length).filter
    (fun (i : Nat) => (grepFileLines test content).any
      (fun m => ((m : Int) - cb ≤ (i : Int)) && ((i : Int) ≤ (m : Int) + ca)))

/-- The per-file loop of `grepPattern`, threading the global
`outputCount` budget.  `limit` is the resolved output-line budget; the
loop stops (`break`) as soon as `outputCount >= limit`, including in the
middle of one file's context lines (the inner loop pushes at most
`limit - outputCount` lines of one file). -/
def grepGo (test : String → Bool) (fsRead : String → String → Option String)
    (cb ca : Int) (fwm co : Bool) (limit : Int) :
    List FileRecord → Int → List GrepResult
  | [], _ => []
  | f :: rest, outputCount =>
    if outputCount ≥ limit then []
    else
      match fsRead f.repo f.path with
      | none => grepGo test fsRead cb ca fwm co limit rest outputCount
      | some content =>
        let matching := grepFileLines test content
        if matching.isEmpty then
          grepGo test fsRead cb ca fwm co limit rest outputCount
        else if fwm then
          ⟨f.repo, f.path, [], matching.length⟩ ::
            grepGo test fsRead cb ca fwm co limit rest (outputCount + 1)
        else if co then
          ⟨f.repo, f.path, [], matching.length⟩ ::
            grepGo test fsRead cb ca fwm co limit rest outputCount
        else
          let shown := (grepShowLines test content cb ca).take (limit - outputCount).toNat
          let ms := shown.map
            (fun i => GrepMatch.mk (i + 1) ((splitLinesJS content).getD i "")
              (matching.contains i))
          ⟨f.repo, f.path, ms, matching.length⟩ ::
            grepGo test fsRead cb ca fwm co limit rest (outputCount + shown.length)

/-- `grepPattern(pattern, options)`: compile the pattern (failing fast
with `InvalidPatternError` carrying the pattern and the engine's
message), query the indexed files passing the repo / file-type filters,
then run the budgeted per-file loop. -/
def grepPattern (compile : String → Bool → Except String (String → Bool))
    (tbl : FilesTable) (fsRead : String → String → Option String)
    (pattern : String) (opts : GrepOptions) :
    Except GrepError (List GrepResult) :=
  match compile pattern opts.ignoreCase with
  | .error msg => .error (.invalidPattern ⟨pattern, msg⟩)
  | .ok test =>
    let files := tbl.filter (fun r =>
      (match opts.repo with
       | none => true
       | some rp => r.repo == rp) &&
      (match opts.fileType with
       | none => true
       | some ft => jsEndsWith r.filename ("." ++ ft)))
    let limit : Int := opts.limit.getD maxSafeInteger
    .ok (grepGo test fsRead (opts.contextBefore.getD 0) (opts.contextAfter.getD 0)
      opts.filesWithMatches opts.count limit files 0)

/-! ## The search subsystem (Indexer.ts)

The LanceDB retrieval engines (full-text relevance, vector
nearest-neighbour, fused-and-reranked) are external; they are modelled as
a `StoreQueryEnv` of functions from the query / filter / limit that the
code passes to the store to the row lists the store returns.  Scores are
exact rationals. -/

/-- JS `haystack.indexOf(needle)` (first occurrence, in characters),
as an `Option` instead of `-1`. -/
def indexOfAux (pat : List Char) : List Char → Nat → Option Nat
  | [], i => if pat.isPrefixOf ([] : List Char) then some i else none
  | c :: rest, i =>
    if pat.isPrefixOf (c :: rest) then some i else indexOfAux pat rest (i + 1)

/-- JS `String.prototype.indexOf`. -/
def indexOfSub (s pat : String) : Option Nat :=
  indexOfAux pat.data s.data 0

/-- JS `String.prototype.slice` with signed indices. -/
def jsStringSlice (s : String) (a b : Int) : String :=
  String.mk (jsSlice s.data a b)

/-- `extractSnippet(contents, query, contextChars = 100)`: a window of
`contextChars` characters around the first case-insensitive occurrence of
the query,或 the leading `2 * contextChars` characters when the query
does not occur. -/
def extractSnippet (contents query : String) (contextChars : Nat := 100) : String :=
  let lower := jsToLower contents
  let queryLower := jsToLower query
  match indexOfSub lower queryLower with
  | none => jsStringSlice contents 0 (2 * contextChars) ++ "..."
  | some idx =>
    let start : Int := max 0 ((idx : Int) - contextChars)
    let stop : Int := min (contents.length : Int) ((idx : Int) + query.length + contextChars)
    (if start > 0 then "..." else "") ++ jsStringSlice contents start stop ++
      (if stop < (contents.length : Int) then "..." else "")

/-- `SearchOptions { repo?, limit? }`. -/
structure SearchOptions where
  repo : Option String := none
  limit : Option Int := none
  deriving DecidableEq, Repr

/-- One row as returned by a LanceDB query: the selected columns plus the
engine-provided score metadata (`_score`, `_distance`,
`_relevanceScore`), each possibly absent. -/
structure RawRow where
  repo : String
  path : String
  filename : String
  contents : String
  score : Option ℚ
  distance : Option ℚ
  relevance : Option ℚ
  deriving DecidableEq, Repr

/-- The external store's three retrieval engines.  Each takes exactly
the data the code passes: the query (text and/or vector), the optional
repo filter, and the value given to `.limit(...)`. -/
structure StoreQueryEnv where
  fts : String → Option String → Int → List RawRow
  vectorSearch : List ℚ → Option String → Int → List RawRow
  hybrid : String → List ℚ → Option String → Int → List RawRow

/-- `SearchResult { repo, path, filename, score, snippet }`. -/
structure SearchResult where
  repo : String
  path : String
  filename : String
  score : ℚ
  snippet : String
  deriving DecidableEq, Repr

/-- `searchKeyword(query, options)`: FTS query with
`limit = options?.limit ?? 20`; score is `r._score ?? 1`. -/
def searchKeyword (env : StoreQueryEnv) (query : String) (opts : SearchOptions) :
    Except SearchError (List SearchResult) :=
  let limit : Int := opts.limit.getD 20
  let rows := env.fts query opts.repo limit
  .ok (rows.map (fun r =>
    ⟨r.repo, r.path, r.filename, r.score.getD 1, extractSnippet r.contents query⟩))

/-- `searchSemantic(query, options)`: the query is embedded with the
ingestion-time provider, then a vector search with
`limit = options?.limit ?? 20`; score is `1 / (1 + (r._distance ?? 0))`. -/
def searchSemantic (env : StoreQueryEnv) (embed : String → Except IndexError (List ℚ))
    (query : String) (opts : SearchOptions) :
    Except SearchError (List SearchResult) :=
  let limit : Int := opts.limit.getD 20
  match embed query with
  | .error e => .error ⟨e.message⟩
  | .ok qv =>
    let rows := env.vectorSearch qv opts.repo limit
    .ok (rows.map (fun r =>
      ⟨r.repo, r.path, r.filename, 1 / (1 + r.distance.getD 0),
        extractSnippet r.contents query⟩))

/-- `searchHybrid(query, options)`: FTS + vector with RRF reranking,
`limit = options?.limit ?? 20`; score is `r._relevanceScore ?? 1`. -/
def searchHybrid (env : StoreQueryEnv) (embed : String → Except IndexError (List ℚ))
    (query : String) (opts : SearchOptions) :
    Except SearchError (List SearchResult) :=
  let limit : Int := opts.limit.getD 20
  match embed query with
  | .error e => .error ⟨e.message⟩
  | .ok qv =>
    let rows := env.hybrid query qv opts.repo limit
    .ok (rows.map (fun r =>
      ⟨r.repo, r.path, r.filename, r.relevance.getD 1,
        extractSnippet r.contents query⟩))

/-! ## The synchronization engine (RepobaseEngine.ts)

`syncRepo` / `syncAll`.  The git transport and the indexer are explicit
environments of fallible functions; the persisted sync-state store is a
list of `RepoConfig` threaded through explicitly, so "the persisted state
after the call" is part of the result even when the call fails. -/

/-- `GitError` (transport failure). -/
structure GitError where
  command : String
  message : String
  deriving DecidableEq, Repr

/-- `StoreError` (sync-state persistence failure). -/
structure StoreError where
  message : String
  deriving DecidableEq, Repr

/-- `RepoMode`: `tracking { branch }` or `pinned { ref }`. -/
inductive RepoMode where
  | tracking (branch : String)
  | pinned (ref : String)
  deriving DecidableEq, Repr

/-- `RepoConfig` (dates modelled as epoch milliseconds). -/
structure RepoConfig where
  id : String
  url : String
  localPath : String
  mode : RepoMode
  lastSyncedCommit : Option String
  lastSyncedAt : Option Int
  addedAt : Int
  deriving DecidableEq, Repr

/-- The persisted repo list (`RepoStoreData.repos`). -/
abbrev StoreData : Type := List RepoConfig

/-- `RepoStore.getRepo`: `data.repos.find(r => r.id === id)`. -/
def getRepoConfig (store : StoreData) (id : String) : Option RepoConfig :=
  store.find? (fun r => r.id == id)

/-- `RepoStore.updateRepo(id, { lastSyncedCommit, lastSyncedAt })`:
merge the update into every record with the given id. -/
def updateRepoSync (store : StoreData) (id : String)
    (commit : Option String) (at_ : Option Int) : StoreData :=
  store.map (fun r =>
    if r.id == id then { r with lastSyncedCommit := commit, lastSyncedAt := at_ } else r)

/-- `git diff --name-status` statuses `A | M | D`. -/
inductive ChangeStatus where
  | A | M | D
  deriving DecidableEq, Repr

/-- `FileChange { status, path }`. -/
structure FileChange where
  status : ChangeStatus
  path : String
  deriving DecidableEq, Repr

/-- `IndexSummary` (wall-clock `durationMs` is outside the model and
fixed to 0). -/
structure IndexSummary where
  repo : String
  filesIndexed : Nat
  filesDeleted : Nat
  filesSkipped : Nat
  durationMs : Nat
  deriving DecidableEq, Repr

/-- The git transport: `fetch`, `getRemoteHead`, `diffNameStatus`,
`resetHard`, each keyed by the arguments the engine passes. -/
structure GitEnv where
  fetch : String → Except GitError Unit
  getRemoteHead : String → String → Except GitError String
  diffNameStatus : String → String → String → Except GitError (List FileChange)
  resetHard : String → String → Except GitError Unit

/-- The indexer as the engine sees it: full-scope and changed-scope
ingestion. -/
structure IndexerEnv where
  indexRepo : String → String → Except IndexError IndexSummary
  indexChanges : String → String → List FileChange → Except IndexError IndexSummary

/-- The engine's error channel
(`RepoNotFoundError | GitError | IndexError | StoreError`). -/
inductive EngineError where
  | repoNotFound (id : String)
  | git (e : GitError)
  | store (e : StoreError)
  | index (e : IndexError)
  deriving DecidableEq, Repr

/-- `SyncResult`: pinned and up-to-date syncs carry no `indexSummary`. -/
structure SyncResult where
  id : String
  updated : Bool
  previousCommit : Option String
  currentCommit : String
  indexSummary : Option IndexSummary
  deriving DecidableEq, Repr

/-- The diff step of `syncRepo`:
`Option.match(previousCommit, { onNone: () => [], onSome: (prev) => git.diffNameStatus(...) })`. -/
def diffStep (git : GitEnv) (localPath : String) (previousCommit : Option String)
    (remoteHead : String) : Except GitError (List FileChange) :=
  match previousCommit with
  | none => Except.ok []
  | some prev => git.diffNameStatus localPath prev remoteHead

/-- The `needsUpdate` computation of `syncRepo`:
`Option.match(previousCommit, { onNone: () => true, onSome: (prev) => prev !== remoteHead })`. -/
def needsUpdateOf (previousCommit : Option String) (remoteHead : String) : Bool :=
  match previousCommit with
  | none => true
  | some prev => prev != remoteHead

/-- `syncRepo(id)`.  Returns the result (or the first failing step's
error) together with the persisted store after the call. -/
def syncRepo (git : GitEnv) (idx : IndexerEnv) (now : Int)
    (store : StoreData) (id : String) :
    (Except EngineError SyncResult) × StoreData :=
  match getRepoConfig store id with
  | none => (.error (.repoNotFound id), store)
  | some repo =>
    match repo.mode with
    | .pinned _ =>
      (.ok ⟨id, false, repo.lastSyncedCommit, repo.lastSyncedCommit.getD "unknown", none⟩,
        store)
    | .tracking branch =>
      match git.fetch repo.localPath with
      | .error e => (.error (.git e), store)
      | .ok () =>
        match git.getRemoteHead repo.localPath branch with
        | .error e => (.error (.git e), store)
        | .ok remoteHead =>
          let previousCommit := repo.lastSyncedCommit
          let needsUpdate : Bool := needsUpdateOf previousCommit remoteHead
          if needsUpdate = false then
            (.ok ⟨id, false, previousCommit, remoteHead, none⟩, store)
          else
            match diffStep git repo.localPath previousCommit remoteHead with
            | .error e => (.error (.git e), store)
            | .ok changes =>
              match git.resetHard repo.localPath ("origin/" ++ branch) with
              | .error e => (.error (.git e), store)
              | .ok () =>
                match (if changes.length > 0 then
                         idx.indexChanges id repo.localPath changes
                       else
                         idx.indexRepo id repo.localPath) with
                | .error e => (.error (.index e), store)
                | .ok indexSummary =>
                  (.ok ⟨id, true, previousCommit, remoteHead, some indexSummary⟩,
                    updateRepoSync store id (some remoteHead) (some now))

/-- The body of `syncAll`'s `Effect.forEach`: the repo list loaded at the
start is traversed sequentially, threading the store; `Effect.forEach`
short-circuits on the first failing `syncRepo`. -/
def syncAllGo (git : GitEnv) (idx : IndexerEnv) (now : Int) :
    List RepoConfig → StoreData → (Except EngineError (List SyncResult)) × StoreData
  | [], store => (.ok [], store)
  | r :: rest, store =>
    match syncRepo git idx now store r.id with
    | (.error e, store2) => (.error e, store2)
    | (.ok res, store2) =>
      match syncAllGo git idx now rest store2 with
      | (.error e, store3) => (.error e, store3)
      | (.ok results, store3) => (.ok (res :: results), store3)

/-- `syncAll()`: load the repo list once, then
`Effect.forEach(data.repos, (repo) => syncRepo(repo.id))`. -/
def syncAll (git : GitEnv) (idx : IndexerEnv) (now : Int) (store : StoreData) :
    (Except EngineError (List SyncResult)) × StoreData :=
  syncAllGo git idx now store store

/-! ## Full-scope ingestion (`indexRepo`, Indexer.ts)

The working tree is the result of the `fast-glob` enumeration (ignore
globs applied): a list of `FsFile`s carrying the bytes `fs.readFile`
yields (`none` for an unreadable file) and the `fs.stat` results.
SHA-256 (`hashBuffer`), UTF-8 decoding (`TextDecoder`) and the embedding
model (`embedText`) are external and passed as functions; `embedText` may
fail, which aborts the run after the deletes and before the adds, exactly
as in the source. -/

/-- `MAX_FILE_SIZE = 64 * 1024`. -/
def MAX_FILE_SIZE : Nat := 64 * 1024

/-- One enumerated working-tree file. -/
structure FsFile where
  path : String
  data : Option (List Nat)
  sizeBytes : Nat
  mtimeMs : Int
  deriving DecidableEq, Repr

/-- `isBinary(buffer)`: byte-sampling heuristic over the first 1024
bytes; any NUL byte is binary, otherwise binary iff more than 30% of the
sample is a suspicious control byte (the float ratio test
`suspicious / sample.length > 0.3` is the exact rational comparison
`10 * suspicious > 3 * sample.length`; an empty sample gives `NaN > 0.3`,
i.e. `false`, matching `0 > 0`). -/
def isBinary (buffer : List Nat) : Bool :=
  let sample := buffer.take 1024
  if sample.contains 0 then true
  else
    let suspicious :=
      (sample.filter (fun b => b < 7 || (b > 13 && b < 32) || b == 255)).length
    suspicious * 10 > sample.length * 3

/-- A file queued for (re-)embedding. -/
structure ToIndexEntry where
  path : String
  contents : String
  hash : String
  deriving DecidableEq, Repr

/-- One iteration of the scan loop: unreadable or binary files are
skipped, a hash match with the existing record skips (unless `force`),
anything else is queued. -/
inductive ScanOutcome where
  | skip
  | queue (e : ToIndexEntry)
  deriving DecidableEq, Repr

/-- Classify one file exactly as the scan loop body does. -/
def scanFile (hash : List Nat → String) (decode : List Nat → String)
    (force : Bool) (existingByPath : List (String × String)) (f : FsFile) :
    ScanOutcome :=
  match f.data with
  | none => .skip
  | some buffer =>
    if isBinary buffer then .skip
    else
      let h := hash buffer
      if force = false && (jsMapGet existingByPath f.path == some h) then .skip
      else .queue ⟨f.path, jsStringSlice (decode buffer) 0 (MAX_FILE_SIZE : Int), h⟩

/-- The scan loop: the queued entries in file order, and the number of
skipped files. -/
def scanFiles (hash : List Nat → String) (decode : List Nat → String)
    (force : Bool) (existingByPath : List (String × String)) :
    List FsFile → List ToIndexEntry × Nat
  | [] => ([], 0)
  | f :: rest =>
    let (ti, sk) := scanFiles hash decode force existingByPath rest
    match scanFile hash decode force existingByPath f with
    | .skip => (ti, sk + 1)
    | .queue e => (e :: ti, sk)

/-- `tbl.delete("id = '<repoId>:<path>'")`: remove the record with the
given composite identity. -/
def deleteId (tbl : FilesTable) (repoId p : String) : FilesTable :=
  tbl.filter (fun r => !(r.repo == repoId && r.path == p))

/-- The per-path delete loops (`for (const path of toDelete)` and the
delete-before-insert loop over `toIndex`). -/
def deleteIds (tbl : FilesTable) (repoId : String) (ps : List String) : FilesTable :=
  ps.foldl (fun t p => deleteId t repoId p) tbl

/-- The `existing` query of `indexRepo`: records of this repo, as
`(path, hash)` pairs in row order (fed to a JS `Map`). -/
def exOf (tbl : FilesTable) (repoId : String) : List (String × String) :=
  (tbl.filter (fun r => r.repo == repoId)).map (fun r => (r.path, r.hash))

/-- The embed-and-stat loop over `toIndex` (`concurrency: 1`), building
the records to `tbl.add`.  `fs.stat` is modelled as returning the
enumerated file's `sizeBytes` / `mtimeMs`. -/
def buildRecords (embed : String → Except IndexError (List Int))
    (files : List FsFile) (repoId : String) :
    List ToIndexEntry → Except IndexError (List FileRecord)
  | [] => .ok []
  | e :: rest =>
    match embed e.contents with
    | .error err => .error err
    | .ok vector =>
      let f? := files.find? (fun f => f.path == e.path)
      match buildRecords embed files repoId rest with
      | .error err => .error err
      | .ok recs =>
        .ok (⟨repoId, e.path, ((jsSplitChar '/' e.path).getLast?).getD e.path,
              e.contents, ((f?.map (fun f => f.mtimeMs)).getD 0),
              ((f?.map (fun f => f.sizeBytes)).getD 0), e.hash, vector⟩ :: recs)

/-- `indexRepo(repoId, repoPath, options)` (full scope): query existing
hashes, scan the enumeration, delete removed and re-indexed records,
embed and add the queued files, and emit the summary.  The table after
the call is returned even when an embedding fails (deletes already
applied, adds not); the FTS index rebuild is swallowed and leaves the
records unchanged. -/
def indexRepo (hash : List Nat → String) (decode : List Nat → String)
    (embed : String → Except IndexError (List Int))
    (repoId : String) (files : List FsFile) (tbl : FilesTable) (force : Bool) :
    (Except IndexError IndexSummary) × FilesTable :=
  let existing := exOf tbl repoId
  let (toIndex, skipped) := scanFiles hash decode force existing files
  let seen := files.map (fun f => f.path)
  let toDelete := (jsMapKeys existing).filter (fun p => !(seen.contains p))
  let tblA := deleteIds tbl repoId toDelete
  let tblB := deleteIds tblA repoId (toIndex.map (fun e => e.path))
  match buildRecords embed files repoId toIndex with
  | .error e => (.error e, tblB)
  | .ok records =>
    (.ok ⟨repoId, toIndex.length, toDelete.length, skipped, 0⟩, tblB ++ records)

/-! # Theorems -/

/-! ## C2: pinned repositories never sync -/

/-- **C2.** For every repository whose tracking mode is pinned, a sync
request is a no-op: `syncRepo` returns `updated = false` with the
repository's current sync state, and the persisted store (in particular
`lastSyncedCommit`) is returned unchanged. -/
theorem syncRepo_pinned_noop (git : GitEnv) (idx : IndexerEnv) (now : Int)
    (store : StoreData) (id ref : String) (repo : RepoConfig)
    (hget : getRepoConfig store id = some repo)
    (hmode : repo.mode = RepoMode.pinned ref) :
    syncRepo git idx now store id =
      (.ok ⟨id, false, repo.lastSyncedCommit, repo.lastSyncedCommit.getD "unknown", none⟩,
        store) := by
  simp only [syncRepo, hget, hmode]

/-- Concrete instance of `syncRepo_pinned_noop`: a store with one pinned
repository. -/
def pinnedRepoW : RepoConfig :=
  ⟨"w1", "https://github.com/a/b", "/tmp/w1", RepoMode.pinned "v1.0", some "abc", some 7, 3⟩

/-- A git environment in which every operation fails; a pinned sync must
succeed without consulting it. -/
def failingGitW : GitEnv :=
  ⟨fun _ => .error ⟨"git fetch", "unreachable"⟩,
   fun _ _ => .error ⟨"git ls-remote", "unreachable"⟩,
   fun _ _ _ => .error ⟨"git diff", "unreachable"⟩,
   fun _ _ => .error ⟨"git reset", "unreachable"⟩⟩

/-- An indexer environment in which every operation fails. -/
def failingIdxW : IndexerEnv :=
  ⟨fun _ _ => .error ⟨"indexRepo", "unreachable"⟩,
   fun _ _ _ => .error ⟨"indexChanges", "unreachable"⟩⟩

/-- Witness for C2 at a concrete pinned repository. -/
theorem syncRepo_pinned_noop_witness :
    getRepoConfig [pinnedRepoW] "w1" = some pinnedRepoW ∧
    pinnedRepoW.mode = RepoMode.pinned "v1.0" ∧
    syncRepo failingGitW failingIdxW 99 [pinnedRepoW] "w1" =
      (.ok ⟨"w1", false, some "abc", "abc", none⟩, [pinnedRepoW]) :=
  ⟨by decide, by decide, by
    have h := syncRepo_pinned_noop failingGitW failingIdxW 99 [pinnedRepoW] "w1" "v1.0"
      pinnedRepoW (by decide) (by decide)
    simpa [pinnedRepoW] using h⟩

/-! ## C3: a failing sync step leaves the persisted state untouched -/

/-- **C3.** Whenever `syncRepo` fails — at the repo lookup, the fetch,
the remote-head lookup, the diff, the working-tree reset, or the
ingestion — the persisted store after the call equals the store before
the call: `lastSyncedCommit` / `lastSyncedAt` keep their prior values. -/
theorem syncRepo_failure_preserves_state (git : GitEnv) (idx : IndexerEnv)
    (now : Int) (store : StoreData) (id : String) (e : EngineError)
    (h : (syncRepo git idx now store id).1 = .error e) :
    (syncRepo git idx now store id).2 = store := by
  unfold syncRepo at h ⊢
  cases hg : getRepoConfig store id with
  | none => rfl
  | some repo =>
    simp only [hg] at h ⊢
    cases hm : repo.mode with
    | pinned ref => simp [hm] at h
    | tracking branch =>
      simp only [hm] at h ⊢
      cases hf : git.fetch repo.localPath with
      | error e1 => simp [hf] at h ⊢
      | ok u =>
        cases u
        simp only [hf] at h ⊢
        cases hh : git.getRemoteHead repo.localPath branch with
        | error e1 => simp [hh] at h ⊢
        | ok head =>
          simp only [hh] at h ⊢
          by_cases hnu : needsUpdateOf repo.lastSyncedCommit head = false
          · simp [hnu] at h
          · simp only [if_neg hnu] at h ⊢
            cases hd : diffStep git repo.localPath repo.lastSyncedCommit head with
            | error e1 => simp [hd] at h ⊢
            | ok changes =>
              simp only [hd] at h ⊢
              cases hr : git.resetHard repo.localPath ("origin/" ++ branch) with
              | error e1 => simp [hr] at h ⊢
              | ok u2 =>
                cases u2
                simp only [hr] at h ⊢
                cases hi : (if 0 < changes.length then
                    idx.indexChanges id repo.localPath changes
                  else
                    idx.indexRepo id repo.localPath) with
                | error e1 => simp [hi] at h ⊢
                | ok s => simp [hi] at h

/-- A tracking-mode repository used by witnesses. -/
def trackingRepoW : RepoConfig :=
  ⟨"t1", "https://github.com/a/c", "/tmp/t1", RepoMode.tracking "main", some "old", some 1, 0⟩

/-- Witness for C3: a sync whose fetch fails leaves the concrete store
unchanged. -/
theorem syncRepo_failure_preserves_state_witness :
    (syncRepo failingGitW failingIdxW 99 [trackingRepoW] "t1").1 =
      Except.error (EngineError.git ⟨"git fetch", "unreachable"⟩) ∧
    (syncRepo failingGitW failingIdxW 99 [trackingRepoW] "t1").2 = [trackingRepoW] :=
  ⟨rfl,
    syncRepo_failure_preserves_state failingGitW failingIdxW 99 [trackingRepoW] "t1"
      (EngineError.git ⟨"git fetch", "unreachable"⟩) rfl⟩

/-! ## C10: full-scope vs changed-scope ingestion choice -/

/-- **C10.** When the remote head changed, `syncRepo` runs changed-scope
ingestion exactly when the computed diff lists at least one entry, and
full-scope ingestion when the diff is empty (in particular when there was
no previous commit, where the diff step yields `[]` without calling git):
with an empty diff the outcome is the full-scope summary and is
independent of the changed-scope ingestion function, and with a non-empty
diff the outcome is the changed-scope summary and is independent of the
full-scope ingestion function. -/
theorem syncRepo_scope_choice (git : GitEnv) (idxA : IndexerEnv) (now : Int)
    (store : StoreData) (id branch remoteHead : String) (repo : RepoConfig)
    (changes : List FileChange)
    (hget : getRepoConfig store id = some repo)
    (hmode : repo.mode = RepoMode.tracking branch)
    (hfetch : git.fetch repo.localPath = .ok ())
    (hhead : git.getRemoteHead repo.localPath branch = .ok remoteHead)
    (hneed : repo.lastSyncedCommit ≠ some remoteHead)
    (hdiff : diffStep git repo.localPath repo.lastSyncedCommit remoteHead = .ok changes)
    (hreset : git.resetHard repo.localPath ("origin/" ++ branch) = .ok ()) :
    (changes = [] → ∀ s, idxA.indexRepo id repo.localPath = .ok s →
      syncRepo git idxA now store id =
        (.ok ⟨id, true, repo.lastSyncedCommit, remoteHead, some s⟩,
          updateRepoSync store id (some remoteHead) (some now))) ∧
    (changes = [] → ∀ idxB : IndexerEnv, idxB.indexRepo = idxA.indexRepo →
      syncRepo git idxB now store id = syncRepo git idxA now store id) ∧
    (changes ≠ [] → ∀ s, idxA.indexChanges id repo.localPath changes = .ok s →
      syncRepo git idxA now store id =
        (.ok ⟨id, true, repo.lastSyncedCommit, remoteHead, some s⟩,
          updateRepoSync store id (some remoteHead) (some now))) ∧
    (changes ≠ [] → ∀ idxB : IndexerEnv, idxB.indexChanges = idxA.indexChanges →
      syncRepo git idxB now store id = syncRepo git idxA now store id) := by
  have hnu : needsUpdateOf repo.lastSyncedCommit remoteHead = true := by
    unfold needsUpdateOf
    cases hc : repo.lastSyncedCommit with
    | none => rfl
    | some prev =>
      rw [hc] at hneed
      simp only [ne_eq, Option.some.injEq] at hneed
      exact bne_iff_ne.mpr hneed
  refine ⟨?_, ?_, ?_, ?_⟩
  · intro hch s hs
    subst hch
    simp [syncRepo, hget, hmode, hfetch, hhead, hnu, hdiff, hreset, hs]
  · intro hch idxB hB
    subst hch
    simp [syncRepo, hget, hmode, hfetch, hhead, hnu, hdiff, hreset, hB]
  · intro hch s hs
    have hlen : 0 < changes.length := List.length_pos.mpr hch
    simp [syncRepo, hget, hmode, hfetch, hhead, hnu, hdiff, hreset, hlen, hs]
  · intro hch idxB hB
    have hlen : 0 < changes.length := List.length_pos.mpr hch
    simp [syncRepo, hget, hmode, hfetch, hhead, hnu, hdiff, hreset, hlen, hB]

/-- A git environment whose remote head moved to `"new"` with an empty
name-status diff. -/
def movedGitW : GitEnv :=
  ⟨fun _ => .ok (), fun _ _ => .ok "new", fun _ _ _ => .ok [], fun _ _ => .ok ()⟩

/-- An indexer environment with distinguishable full-scope and
changed-scope summaries. -/
def okIdxW : IndexerEnv :=
  ⟨fun rid _ => .ok ⟨rid, 2, 1, 3, 0⟩, fun rid _ ch => .ok ⟨rid, ch.length, 0, 0, 0⟩⟩

/-- Witness for C10: with a previous commit and an empty diff, the sync
outcome is the full-scope summary. -/
theorem syncRepo_scope_choice_witness :
    getRepoConfig [trackingRepoW] "t1" = some trackingRepoW ∧
    syncRepo movedGitW okIdxW 7 [trackingRepoW] "t1" =
      (.ok ⟨"t1", true, some "old", "new", some ⟨"t1", 2, 1, 3, 0⟩⟩,
        updateRepoSync [trackingRepoW] "t1" (some "new") (some 7)) :=
  ⟨by decide,
    (syncRepo_scope_choice movedGitW okIdxW 7 [trackingRepoW] "t1" "main" "new"
        trackingRepoW [] (by decide) rfl rfl rfl (by decide)
        rfl rfl).1 rfl ⟨"t1", 2, 1, 3, 0⟩ rfl⟩

/-! ## C9: path-traversal defense in read -/

/-- `containsAux` finds any explicitly exhibited occurrence. -/
theorem containsAux_of_isPrefixOf (pat l : List Char) (h : pat.isPrefixOf l = true) :
    containsAux pat l = true := by
  cases l with
  | nil => simpa [containsAux] using h
  | cons c rest => simp [containsAux, h]

/-- `containsAux pat` is `true` on any list of the shape
`l1 ++ pat ++ l2`. -/
theorem containsAux_append (pat l1 l2 : List Char) :
    containsAux pat (l1 ++ (pat ++ l2)) = true := by
  induction l1 with
  | nil =>
    simp only [List.nil_append]
    exact containsAux_of_isPrefixOf pat (pat ++ l2)
      (List.isPrefixOf_iff_prefix.mpr (List.prefix_append pat l2))
  | cons c t ih =>
    simp [containsAux, ih]

/-- **C9.** Every `read` path that contains a parent-directory segment
(exhibited as any occurrence of `".."`) or begins with a root separator
is rejected with the invalid-path error, for every index table and every
filesystem: the result does not depend on either, so no filesystem access
(and no index query) can influence or be influenced by the call. -/
theorem readFile_rejects_traversal (tbl : FilesTable)
    (fsRead : String → String → Option String) (repo filePath : String)
    (opts : ReadFileOptions)
    (h : (∃ a b : String, filePath = a ++ ".." ++ b) ∨ jsStartsWith filePath "/" = true) :
    readFile tbl fsRead repo filePath opts =
      .error (.indexErr ⟨"validatePath", "Invalid path: " ++ filePath⟩) := by
  have hrej : pathRejected filePath = true := by
    rcases h with ⟨a, b, rfl⟩ | hs
    · have hx : containsSub (a ++ ".." ++ b) ".." = true := by
        unfold containsSub
        have hdata : (a ++ ".." ++ b).data = a.data ++ ((".." : String).data ++ b.data) := by
          simp
        rw [hdata]
        exact containsAux_append (".." : String).data a.data b.data
      unfold pathRejected
      rw [hx]
      rfl
    · unfold pathRejected
      rw [hs]
      simp
  unfold readFile validatePath
  rw [hrej]
  simp

/-- Witness for C9: `"../secret"` and `"/etc/passwd"` are both rejected
before any lookup, even with a populated index and a readable file. -/
theorem readFile_rejects_traversal_witness :
    ("../secret" = "" ++ ".." ++ "/secret") ∧
    readFile [⟨"r", "../secret", "secret", "", 0, 0, "h", []⟩]
        (fun _ _ => some "top secret") "r" "../secret" {} =
      .error (.indexErr ⟨"validatePath", "Invalid path: " ++ "../secret"⟩) ∧
    jsStartsWith "/etc/passwd" "/" = true ∧
    readFile [] (fun _ _ => some "root:x") "r" "/etc/passwd" {} =
      .error (.indexErr ⟨"validatePath", "Invalid path: " ++ "/etc/passwd"⟩) :=
  ⟨rfl,
    readFile_rejects_traversal _ _ "r" "../secret" {} (Or.inl ⟨"", "/secret", rfl⟩),
    rfl,
    readFile_rejects_traversal _ _ "r" "/etc/passwd" {} (Or.inr rfl)⟩

/-! ## C8: ranged reads -/

/-- For in-range indices, the JS `slice` is the plain take/drop window:
`jsSlice l s e = (l.take e).drop s` whenever `0 ≤ s`, `0 ≤ e ≤ l.length`. -/
theorem jsSlice_nonneg {α : Type} (l : List α) (s e : Int)
    (hs : 0 ≤ s) (he : 0 ≤ e) (hel : e ≤ (l.length : Int)) :
    jsSlice l s e = (l.take e.toNat).drop s.toNat := by
  simp only [jsSlice]
  rw [if_neg (by omega), if_neg (by omega)]
  have h1 : min e (l.length : Int) = e := by omega
  rw [h1]
  by_cases hsl : s ≤ (l.length : Int)
  · have h2 : min s (l.length : Int) = s := by omega
    rw [h2]
  · have h2 : min s (l.length : Int) = (l.length : Int) := by omega
    rw [h2]
    have hlt : (l.take e.toNat).length ≤ (l.length : Int).toNat := by
      simp [List.length_take]
    rw [List.drop_eq_nil_of_le hlt, List.drop_eq_nil_of_le]
    have : (l.take e.toNat).length ≤ l.length := by simp [List.length_take]
    omega

/-- **C8.** For every indexed file, every offset `o ≥ 1` and limit
`l ≥ 1`, `readFile` returns exactly the lines in positions
`[o, min(totalLines, o+l-1)]` (take-then-drop of the split content),
reporting `totalLines`, `startLine = o` and
`endLine = min(totalLines, o+l-1)`. -/
theorem readFile_ranged (tbl : FilesTable) (fsRead : String → String → Option String)
    (repo filePath content : String) (opts : ReadFileOptions) (o l : Int)
    (hok : pathRejected filePath = false)
    (hidx : tbl.any (fun r => r.repo == repo && r.path == filePath) = true)
    (hfs : fsRead repo filePath = some content)
    (ho : opts.offset = some o) (ho1 : 1 ≤ o)
    (hl : opts.limit = some l) (hl1 : 1 ≤ l) :
    readFile tbl fsRead repo filePath opts =
      .ok ⟨repo, filePath,
        renderLines
          (((splitLinesJS content).take
              (min ((splitLinesJS content).length : Int) (o + l - 1)).toNat).drop
            (o - 1).toNat)
          o (opts.lineNumbers != some false),
        (splitLinesJS content).length, o,
        min ((splitLinesJS content).length : Int) (o + l - 1)⟩ := by
  unfold readFile validatePath
  rw [hok]
  simp only [Bool.false_eq_true, if_false]
  rw [hidx]
  simp only [if_true, hfs, ho, hl, Option.getD_some]
  have hmax : max 1 o = o := max_eq_right ho1
  rw [hmax]
  have hslice : jsSlice (splitLinesJS content) (o - 1)
      (min ((splitLinesJS content).length : Int) (o + l - 1)) =
      (((splitLinesJS content).take
          (min ((splitLinesJS content).length : Int) (o + l - 1)).toNat).drop
        (o - 1).toNat) := by
    apply jsSlice_nonneg
    · omega
    · omega
    · exact min_le_left _ _
  rw [hslice]

/-- A ten-line file used by the C8 witness. -/
def tenLineContent : String :=
  "L1\nL2\nL3\nL4\nL5\nL6\nL7\nL8\nL9\nL10"

/-- Witness for C8: `read(repo, path, offset := 5, limit := 3)` on a
10-line file returns exactly lines 5-7 and reports `totalLines = 10`,
`startLine = 5`, `endLine = 7`. -/
theorem readFile_ranged_witness :
    pathRejected "a.txt" = false ∧
    readFile [⟨"r", "a.txt", "a.txt", "", 0, 0, "h", []⟩]
        (fun _ _ => some tenLineContent) "r" "a.txt"
        ⟨some 5, some 3, some true⟩ =
      .ok ⟨"r", "a.txt", "     5|L5\n     6|L6\n     7|L7", 10, 5, 7⟩ := by
  refine ⟨rfl, ?_⟩
  rw [readFile_ranged [⟨"r", "a.txt", "a.txt", "", 0, 0, "h", []⟩]
    (fun _ _ => some tenLineContent) "r" "a.txt" tenLineContent
    ⟨some 5, some 3, some true⟩ 5 3 rfl rfl rfl rfl (by omega) rfl (by omega)]
  rfl

/-! ## C7: invalid grep patterns fail fast -/

/-- **C7.** Whenever the regex engine rejects the pattern, `grepPattern`
fails with `InvalidPatternError` carrying the original pattern and the
engine's description, for every table and every filesystem: the result
does not depend on either, so the failure happens before any file-record
query or file read, and nothing can be mutated. -/
theorem grepPattern_invalid_failfast
    (compile : String → Bool → Except String (String → Bool))
    (tbl : FilesTable) (fsRead : String → String → Option String)
    (pattern msg : String) (opts : GrepOptions)
    (h : compile pattern opts.ignoreCase = .error msg) :
    grepPattern compile tbl fsRead pattern opts =
      .error (.invalidPattern ⟨pattern, msg⟩) := by
  unfold grepPattern
  rw [h]

/-- A model of `new RegExp` that throws on the unbalanced pattern `"("`
and accepts everything else. -/
def compileParen : String → Bool → Except String (String → Bool) :=
  fun p _ =>
    if p = "(" then .error "Invalid regular expression: /(/: Unterminated group"
    else .ok (fun _ => false)

/-- Witness for C7: grep with pattern `"("` on a populated index over a
readable filesystem fails with the invalid-pattern error. -/
theorem grepPattern_invalid_failfast_witness :
    compileParen "(" false = .error "Invalid regular expression: /(/: Unterminated group" ∧
    grepPattern compileParen [⟨"r", "f.txt", "f.txt", "x", 0, 0, "h", []⟩]
        (fun _ _ => some "body") "(" {} =
      .error (.invalidPattern
        ⟨"(", "Invalid regular expression: /(/: Unterminated group"⟩) :=
  ⟨rfl,
    grepPattern_invalid_failfast compileParen
      [⟨"r", "f.txt", "f.txt", "x", 0, 0, "h", []⟩] (fun _ _ => some "body")
      "(" "Invalid regular expression: /(/: Unterminated group" {} rfl⟩

/-! ## C5: the grep output budget -/

/-- The number of output lines a grep result list stands for: one line
per file in `files_with_matches` mode, otherwise one per emitted match
or context line. -/
def outputLineCount (opts : GrepOptions) (rs : List GrepResult) : Nat :=
  if opts.filesWithMatches then rs.length
  else (rs.map (fun r => r.«matches».length)).sum

/-- The compiled form of the literal pattern `"a"`. -/
def compileLitA : String → Bool → Except String (String → Bool) :=
  fun _ _ => .ok (fun line => line == "a")

/-- A one-file table whose file has 101 matching lines on disk. -/
def grepTblC5 : FilesTable := [⟨"r", "f.txt", "f.txt", "", 0, 0, "h", []⟩]

/-- The matching filesystem: 101 lines, each `"a"`. -/
def grepFsC5 : String → String → Option String :=
  fun _ _ => some (String.intercalate "\n" (List.replicate 101 "a"))

set_option maxRecDepth 40000 in
/-- **C5 is false as stated**: a grep call without an explicit limit
emits 101 output lines on a 101-matching-line file — no default budget
of 100 lines is applied. -/
theorem grep_default_limit_counterexample :
    (match grepPattern compileLitA grepTblC5 grepFsC5 "a" {} with
      | .ok rs => outputLineCount {} rs
      | .error _ => 0) = 101 ∧ 100 < 101 := by
  constructor
  · rfl
  · omega

/-- Weight of a grep result list as counted by `outputCount`. -/
def grepGoWeight (fwm : Bool) (rs : List GrepResult) : Nat :=
  if fwm then rs.length else (rs.map (fun r => r.«matches».length)).sum

/-- The budgeted loop never emits more than `limit - c` output lines
(outside `count_only` mode, whose results carry no output lines and are
not budgeted by the code). -/
theorem grepGo_bound (test : String → Bool) (fsRead : String → String → Option String)
    (cb ca : Int) (fwm : Bool) (limit : Int) :
    ∀ (files : List FileRecord) (c : Int),
      grepGoWeight fwm (grepGo test fsRead cb ca fwm false limit files c) ≤
        (limit - c).toNat := by
  intro files
  induction files with
  | nil => intro c; simp [grepGo, grepGoWeight]
  | cons f rest ih =>
    intro c
    rw [grepGo]
    by_cases hc : c ≥ limit
    · rw [if_pos hc]; simp [grepGoWeight]
    · rw [if_neg hc]
      cases hfs : fsRead f.repo f.path with
      | none =>
        exact ih c
      | some content =>
        simp only
        by_cases hm : (grepFileLines test content).isEmpty
        · rw [if_pos hm]
          exact ih c
        · rw [if_neg hm]
          by_cases hfwm : fwm = true
          · subst hfwm
            rw [if_pos rfl]
            have h1 := ih (c + 1)
            simp [grepGoWeight] at h1 ⊢
            omega
          · have hfwm2 : fwm = false := by simpa using hfwm
            subst hfwm2
            rw [if_neg (by simp), if_neg (by simp)]
            have hlen : ((grepShowLines test content cb ca).take
                (limit - c).toNat).length ≤ (limit - c).toNat := by
              simp
            have h1 := ih (c + ((grepShowLines test content cb ca).take
                (limit - c).toNat).length)
            simp [grepGoWeight] at h1 ⊢
            omega

/-- **C5 amended.** When grep is called without an explicit limit, the
loop budget is `Number.MAX_SAFE_INTEGER` — there is no default budget of
100 output lines; when an explicit limit is supplied (and `count_only`
is off), the total number of emitted output lines never exceeds it, the
loop stopping even in the middle of a file. -/
theorem grepPattern_budget (compile : String → Bool → Except String (String → Bool))
    (tbl : FilesTable) (fsRead : String → String → Option String)
    (pattern : String) (opts : GrepOptions) :
    (opts.limit = none →
      grepPattern compile tbl fsRead pattern opts =
        grepPattern compile tbl fsRead pattern { opts with limit := some maxSafeInteger }) ∧
    (∀ (n : Int) (rs : List GrepResult), opts.limit = some n → opts.count = false →
      grepPattern compile tbl fsRead pattern opts = .ok rs →
      outputLineCount opts rs ≤ n.toNat) := by
  constructor
  · intro hnone
    unfold grepPattern
    rw [hnone]
    rfl
  · intro n rs hlim hco h
    unfold grepPattern at h
    cases hcp : compile pattern opts.ignoreCase with
    | error msg => rw [hcp] at h; cases h
    | ok test =>
      rw [hcp] at h
      simp only [hlim, Option.getD_some, Except.ok.injEq] at h
      subst h
      have hb := grepGo_bound test fsRead (opts.contextBefore.getD 0)
        (opts.contextAfter.getD 0) opts.filesWithMatches n
        (tbl.filter (fun r =>
          (match opts.repo with
           | none => true
           | some rp => r.repo == rp) &&
          (match opts.fileType with
           | none => true
           | some ft => jsEndsWith r.filename ("." ++ ft)))) 0
      rw [hco]
      simpa [outputLineCount, grepGoWeight] using hb
/-- The 101-line file truncated to the first five output lines. -/
def grepRs5 : List GrepResult :=
  [⟨"r", "f.txt",
    [⟨1, "a", true⟩, ⟨2, "a", true⟩, ⟨3, "a", true⟩, ⟨4, "a", true⟩, ⟨5, "a", true⟩],
    101⟩]

set_option maxRecDepth 40000 in
/-- Witness for the amended C5: with an explicit limit of 5 on the
101-matching-line file, grep stops mid-file after five output lines, and
the bound of `grepPattern_budget` holds there. -/
theorem grepPattern_budget_witness :
    grepPattern compileLitA grepTblC5 grepFsC5 "a" { limit := some 5 } = .ok grepRs5 ∧
    outputLineCount { limit := some 5 } grepRs5 ≤ (5 : Int).toNat :=
  ⟨rfl,
    (grepPattern_budget compileLitA grepTblC5 grepFsC5 "a" { limit := some 5 }).2
      5 grepRs5 rfl rfl rfl⟩

/-! ## C4: the search limit is not clamped -/

/-- A store environment consistent with a real store: each engine holds
one matching row and honours the limit (nothing for a non-positive
limit, the row otherwise). -/
def envC4 : StoreQueryEnv where
  fts := fun _ _ lim =>
    if lim ≤ 0 then [] else [⟨"r", "p.ts", "p.ts", "foo bar", some 2, none, none⟩]
  vectorSearch := fun _ _ lim =>
    if lim ≤ 0 then [] else [⟨"r", "p.ts", "p.ts", "foo bar", none, some 0, none⟩]
  hybrid := fun _ _ _ lim =>
    if lim ≤ 0 then [] else [⟨"r", "p.ts", "p.ts", "foo bar", none, none, some 1⟩]

/-- A one-dimensional embedding provider for the C4 environments. -/
def embedC4 : String → Except IndexError (List ℚ) := fun _ => .ok [1]

/-- **C4 is false as stated**: for each of the three search operations,
a supplied limit of `0` yields an empty result list while the default
limit (absent) yields the matching row — a limit `≤ 0` is *not* clamped
to the default of 20. -/
theorem search_limit_clamp_counterexample :
    searchKeyword envC4 "foo" ⟨none, some 0⟩ = .ok [] ∧
    searchKeyword envC4 "foo" ⟨none, none⟩ ≠ searchKeyword envC4 "foo" ⟨none, some 0⟩ ∧
    searchSemantic envC4 embedC4 "foo" ⟨none, some 0⟩ = .ok [] ∧
    searchSemantic envC4 embedC4 "foo" ⟨none, none⟩ ≠
      searchSemantic envC4 embedC4 "foo" ⟨none, some 0⟩ ∧
    searchHybrid envC4 embedC4 "foo" ⟨none, some 0⟩ = .ok [] ∧
    searchHybrid envC4 embedC4 "foo" ⟨none, none⟩ ≠
      searchHybrid envC4 embedC4 "foo" ⟨none, some 0⟩ := by
  refine ⟨rfl, ?_, rfl, ?_, rfl, ?_⟩ <;>
    · intro h
      simp [searchKeyword, searchSemantic, searchHybrid, envC4, embedC4] at h

/-- **C4 amended.** Each search operation resolves its limit as
`options?.limit ?? 20`: the default of 20 applies only when no limit is
supplied, and a supplied limit — including one `≤ 0` — is passed to the
store engine unmodified (no clamping). -/
theorem search_limit_passthrough (env : StoreQueryEnv)
    (embed : String → Except IndexError (List ℚ)) (q : String)
    (r : Option String) (l : Int) (qv : List ℚ)
    (hqv : embed q = .ok qv) :
    (searchKeyword env q ⟨r, none⟩ = searchKeyword env q ⟨r, some 20⟩) ∧
    (l ≤ 0 → searchKeyword env q ⟨r, some l⟩ =
      .ok ((env.fts q r l).map (fun row =>
        ⟨row.repo, row.path, row.filename, row.score.getD 1,
          extractSnippet row.contents q⟩))) ∧
    (searchSemantic env embed q ⟨r, none⟩ = searchSemantic env embed q ⟨r, some 20⟩) ∧
    (l ≤ 0 → searchSemantic env embed q ⟨r, some l⟩ =
      .ok ((env.vectorSearch qv r l).map (fun row =>
        ⟨row.repo, row.path, row.filename, 1 / (1 + row.distance.getD 0),
          extractSnippet row.contents q⟩))) ∧
    (searchHybrid env embed q ⟨r, none⟩ = searchHybrid env embed q ⟨r, some 20⟩) ∧
    (l ≤ 0 → searchHybrid env embed q ⟨r, some l⟩ =
      .ok ((env.hybrid q qv r l).map (fun row =>
        ⟨row.repo, row.path, row.filename, row.relevance.getD 1,
          extractSnippet row.contents q⟩))) := by
  refine ⟨rfl, fun _ => rfl, rfl, ?_, rfl, ?_⟩
  · intro _
    unfold searchSemantic
    rw [hqv]
    rfl
  · intro _
    unfold searchHybrid
    rw [hqv]
    rfl

/-- Witness for the amended C4 at the concrete environment, with
limit `0`. -/
theorem search_limit_passthrough_witness :
    embedC4 "foo" = .ok [1] ∧
    (0 : Int) ≤ 0 ∧
    searchKeyword envC4 "foo" ⟨none, some 0⟩ =
      .ok ((envC4.fts "foo" none 0).map (fun row =>
        ⟨row.repo, row.path, row.filename, row.score.getD 1,
          extractSnippet row.contents "foo"⟩)) :=
  ⟨rfl, le_refl 0,
    (search_limit_passthrough envC4 embedC4 "foo" none 0 [1] rfl).2.1 (le_refl 0)⟩

/-! ## C1: one repository's failure aborts syncAll -/

/-- Two tracking repositories; the first one's remote is unreachable. -/
def repoR1 : RepoConfig := ⟨"r1", "u1", "p1", RepoMode.tracking "main", none, none, 0⟩

/-- The second repository, whose sync would succeed. -/
def repoR2 : RepoConfig := ⟨"r2", "u2", "p2", RepoMode.tracking "main", none, none, 0⟩

/-- A git transport that fails to fetch `p1` and works everywhere else. -/
def gitFail1 : GitEnv :=
  ⟨fun p => if p = "p1" then .error ⟨"git fetch", "network down"⟩ else .ok (),
   fun _ _ => .ok "h2", fun _ _ _ => .ok [], fun _ _ => .ok ()⟩

/-- **C1 is false as stated**: with two repositories where only the
first one's fetch fails, `syncAll` fails with that single error and no
per-repository outcomes — while the second repository's sync, run on its
own, would have succeeded (`updated = true`).  The first failure aborts
the sibling's sync. -/
theorem syncAll_not_independent_counterexample :
    syncAll gitFail1 okIdxW 5 [repoR1, repoR2] =
      (.error (.git ⟨"git fetch", "network down"⟩), [repoR1, repoR2]) ∧
    (syncRepo gitFail1 okIdxW 5 [repoR1, repoR2] "r2").1 =
      .ok ⟨"r2", true, none, "h2", some ⟨"r2", 2, 1, 3, 0⟩⟩ :=
  ⟨rfl, rfl⟩

/-- **C1 amended.** `syncAll` processes the loaded repository list
sequentially and short-circuits: when a repository's sync fails — at any
position, with every earlier repository's sync having succeeded — the
whole run fails with exactly that repository's error and the store as of
the failure, for *every* possible tail of remaining repositories (so the
remaining repositories are never synced); and a per-repository outcome
list is reported only when every sync succeeds, with exactly one outcome
per loaded repository. -/
theorem syncAll_failfast (git : GitEnv) (idx : IndexerEnv) (now : Int) :
    (∀ (pre rest : List RepoConfig) (r : RepoConfig) (st st1 st2 : StoreData)
       (results1 : List SyncResult) (e : EngineError),
      syncAllGo git idx now pre st = (.ok results1, st1) →
      syncRepo git idx now st1 r.id = (.error e, st2) →
      syncAllGo git idx now (pre ++ r :: rest) st = (.error e, st2)) ∧
    (∀ (pre rest : List RepoConfig) (r : RepoConfig) (st1 st2 : StoreData)
       (results1 : List SyncResult) (e : EngineError),
      syncAllGo git idx now pre (pre ++ r :: rest) = (.ok results1, st1) →
      syncRepo git idx now st1 r.id = (.error e, st2) →
      syncAll git idx now (pre ++ r :: rest) = (.error e, st2)) ∧
    (∀ (L : List RepoConfig) (st st' : StoreData) (results : List SyncResult),
      syncAllGo git idx now L st = (.ok results, st') → results.length = L.length) := by
  have hfail : ∀ (pre : List RepoConfig) (rest : List RepoConfig) (r : RepoConfig)
      (st st1 st2 : StoreData) (results1 : List SyncResult) (e : EngineError),
      syncAllGo git idx now pre st = (.ok results1, st1) →
      syncRepo git idx now st1 r.id = (.error e, st2) →
      syncAllGo git idx now (pre ++ r :: rest) st = (.error e, st2) := by
    intro pre
    induction pre with
    | nil =>
      intro rest r st st1 st2 results1 e h1 h2
      simp only [syncAllGo, Prod.mk.injEq] at h1
      rw [List.nil_append]
      unfold syncAllGo
      rw [← h1.2] at h2
      rw [h2]
    | cons p pre ih =>
      intro rest r st st1 st2 results1 e h1 h2
      rw [List.cons_append]
      unfold syncAllGo at h1
      cases hp : syncRepo git idx now st p.id with
      | mk fst snd =>
        rw [hp] at h1
        cases fst with
        | error e2 => simp at h1
        | ok res =>
          simp only [] at h1
          cases hrec : syncAllGo git idx now pre snd with
          | mk fst2 snd2 =>
            rw [hrec] at h1
            cases fst2 with
            | error e2 => simp at h1
            | ok results2 =>
              simp only [Prod.mk.injEq, Except.ok.injEq] at h1
              have hstep := ih rest r snd st1 st2 results2 e
                (by rw [hrec, h1.2]) h2
              unfold syncAllGo
              rw [hp]
              simp only []
              rw [hstep]
  have hlen : ∀ (L : List RepoConfig) (st st' : StoreData) (results : List SyncResult),
      syncAllGo git idx now L st = (.ok results, st') → results.length = L.length := by
    intro L
    induction L with
    | nil =>
      intro st st' results h
      simp only [syncAllGo, Prod.mk.injEq, Except.ok.injEq] at h
      rw [← h.1]
      rfl
    | cons p rest ih =>
      intro st st' results h
      unfold syncAllGo at h
      cases hp : syncRepo git idx now st p.id with
      | mk fst snd =>
        rw [hp] at h
        cases fst with
        | error e2 => simp at h
        | ok res =>
          simp only [] at h
          cases hrec : syncAllGo git idx now rest snd with
          | mk fst2 snd2 =>
            rw [hrec] at h
            cases fst2 with
            | error e2 => simp at h
            | ok results2 =>
              simp only [Prod.mk.injEq, Except.ok.injEq] at h
              rw [← h.1]
              simp [ih snd snd2 results2 (by rw [hrec])]
  refine ⟨hfail, ?_, hlen⟩
  intro pre rest r st1 st2 results1 e h1 h2
  unfold syncAll
  exact hfail pre rest r (pre ++ r :: rest) st1 st2 results1 e h1 h2

/-- A third tracking repository, after the failing one. -/
def repoR3 : RepoConfig := ⟨"r3", "u3", "p3", RepoMode.tracking "main", none, none, 0⟩

/-- `repoR2` after its successful sync to `h2` at time 5. -/
def repoR2s : RepoConfig :=
  ⟨"r2", "u2", "p2", RepoMode.tracking "main", some "h2", some 5, 0⟩

/-- Witness for the amended C1: in the store `[r2, r1, r3]` the first
repository syncs successfully, the second one's fetch fails, and
`syncAll` stops there with the second repository's error — `r3` is never
synced. -/
theorem syncAll_failfast_witness :
    syncAllGo gitFail1 okIdxW 5 [repoR2] [repoR2, repoR1, repoR3] =
      (.ok [⟨"r2", true, none, "h2", some ⟨"r2", 2, 1, 3, 0⟩⟩],
        [repoR2s, repoR1, repoR3]) ∧
    syncRepo gitFail1 okIdxW 5 [repoR2s, repoR1, repoR3] "r1" =
      (.error (.git ⟨"git fetch", "network down"⟩), [repoR2s, repoR1, repoR3]) ∧
    syncAll gitFail1 okIdxW 5 [repoR2, repoR1, repoR3] =
      (.error (.git ⟨"git fetch", "network down"⟩), [repoR2s, repoR1, repoR3]) :=
  ⟨rfl, rfl,
    (syncAll_failfast gitFail1 okIdxW 5).2.1 [repoR2] [repoR3] repoR1
      [repoR2s, repoR1, repoR3] [repoR2s, repoR1, repoR3]
      [⟨"r2", true, none, "h2", some ⟨"r2", 2, 1, 3, 0⟩⟩]
      (.git ⟨"git fetch", "network down"⟩) rfl rfl⟩

/-! ## C6: ingestion idempotence — auxiliary lemmas -/

/-- `deleteIds` is a single filter on the composite identity. -/
theorem deleteIds_eq_filter (rid : String) :
    ∀ (ps : List String) (tbl : FilesTable),
      deleteIds tbl rid ps =
        tbl.filter (fun r => !(r.repo == rid && ps.contains r.path)) := by
  intro ps
  induction ps with
  | nil =>
    intro tbl
    simp [deleteIds]
  | cons p ps ih =>
    intro tbl
    have h1 : deleteIds tbl rid (p :: ps) = deleteIds (deleteId tbl rid p) rid ps := rfl
    rw [h1, ih, deleteId, List.filter_filter]
    apply List.filter_congr
    intro r _
    cases h1 : r.repo == rid <;> by_cases h2 : r.path = p <;>
      by_cases h3 : r.path ∈ ps <;>
      simp [List.contains, h1, h2, h3]

/-- Membership in `deleteIds`. -/
theorem mem_deleteIds {r : FileRecord} {tbl : FilesTable} {rid : String}
    {ps : List String} :
    r ∈ deleteIds tbl rid ps ↔
      r ∈ tbl ∧ !(r.repo == rid && ps.contains r.path) = true := by
  rw [deleteIds_eq_filter]
  simp [List.mem_filter]

/-- The repo-scoped `(path, hash)` view of a delete is a key filter. -/
theorem exOf_deleteIds (tbl : FilesTable) (rid : String) (ps : List String) :
    exOf (deleteIds tbl rid ps) rid =
      (exOf tbl rid).filter (fun q => !(ps.contains q.1)) := by
  rw [deleteIds_eq_filter]
  unfold exOf
  rw [List.filter_filter, List.filter_map, List.filter_filter]
  congr 1
  apply List.filter_congr
  intro r _
  cases h1 : r.repo == rid <;> by_cases h2 : r.path ∈ ps <;>
    simp [List.contains, h1, h2, Function.comp]

/-- `jsMapGet` over an append prefers the later (right) entries. -/
theorem jsMapGet_append (a b : List (String × String)) (k : String) :
    jsMapGet (a ++ b) k = (jsMapGet b k).or (jsMapGet a k) := by
  cases h : (b.reverse.find? (fun p => p.1 == k)) <;>
    simp [jsMapGet, List.reverse_append, List.find?_append, h, Option.or]

/-- `jsMapGet` of a map without the key. -/
theorem jsMapGet_eq_none {m : List (String × String)} {k : String}
    (h : ∀ p ∈ m, p.1 ≠ k) : jsMapGet m k = none := by
  unfold jsMapGet
  rw [List.find?_eq_none.mpr]
  · rfl
  · intro p hp
    simp only [List.mem_reverse] at hp
    simpa using h p hp

/-- A filter that keeps every entry of the key leaves `jsMapGet`
unchanged. -/
theorem jsMapGet_filter_keep (keep : String × String → Bool) (k : String)
    (m : List (String × String)) (h : ∀ p : String × String, p.1 = k → keep p = true) :
    jsMapGet (m.filter keep) k = jsMapGet m k := by
  unfold jsMapGet
  rw [← List.filter_reverse]
  congr 1
  generalize m.reverse = l
  induction l with
  | nil => rfl
  | cons a t ih =>
    by_cases hk : keep a = true
    · rw [List.filter_cons_of_pos hk]
      rw [List.find?_cons, List.find?_cons]
      cases ha : (a.1 == k) <;> simp [ha, ih]
    · rw [List.filter_cons_of_neg hk]
      have ha : (a.1 == k) = false := by
        cases ha : (a.1 == k)
        · rfl
        · exact absurd (h a (by simpa using ha)) hk
      rw [List.find?_cons, ha]
      simpa using ih

/-- With duplicate-free keys, `jsMapGet` returns the unique value of a
present key. -/
theorem jsMapGet_of_mem_nodup :
    ∀ (m : List (String × String)) (k v : String),
      (m.map Prod.fst).Nodup → (k, v) ∈ m → jsMapGet m k = some v := by
  intro m
  induction m with
  | nil => intro k v _ hmem; cases hmem
  | cons a t ih =>
    intro k v hnd hmem
    have hsplit : jsMapGet (a :: t) k = (jsMapGet t k).or (jsMapGet [a] k) := by
      simpa using jsMapGet_append [a] t k
    rcases List.mem_cons.mp hmem with ha | hat
    · subst ha
      have hnone : jsMapGet t k = none := by
        apply jsMapGet_eq_none
        intro p hp hk
        have : k ∈ t.map Prod.fst := by
          exact List.mem_map.mpr ⟨p, hp, hk⟩
        simp only [List.map_cons, List.nodup_cons] at hnd
        exact hnd.1 this
      rw [hsplit, hnone]
      simp [jsMapGet]
    · have hndt : (t.map Prod.fst).Nodup := by
        simp only [List.map_cons, List.nodup_cons] at hnd
        exact hnd.2
      have hget := ih k v hndt hat
      rw [hsplit, hget]
      rfl

/-- `exOf` distributes over appends. -/
theorem exOf_append (a b : FilesTable) (rid : String) :
    exOf (a ++ b) rid = exOf a rid ++ exOf b rid := by
  simp [exOf]

/-- `exOf` of a table whose records all belong to the repo is the plain
pair view. -/
theorem exOf_all_rid (recs : FilesTable) (rid : String)
    (h : ∀ r ∈ recs, r.repo = rid) :
    exOf recs rid = recs.map (fun r => (r.path, r.hash)) := by
  unfold exOf
  rw [List.filter_eq_self.mpr]
  intro r hr
  simp [h r hr]

/-- A successful `buildRecords` yields records whose `(path, hash)`
pairs are the queued entries' and whose repo is the ingested one. -/
theorem buildRecords_ok (embed : String → Except IndexError (List Int))
    (files : List FsFile) (rid : String) :
    ∀ (T : List ToIndexEntry) (recs : List FileRecord),
      buildRecords embed files rid T = .ok recs →
      recs.map (fun r => (r.path, r.hash)) = T.map (fun e => (e.path, e.hash)) ∧
        ∀ r ∈ recs, r.repo = rid := by
  intro T
  induction T with
  | nil =>
    intro recs h
    simp only [buildRecords, Except.ok.injEq] at h
    subst h
    simp
  | cons e T ih =>
    intro recs h
    unfold buildRecords at h
    cases he : embed e.contents with
    | error err => rw [he] at h; cases h
    | ok vector =>
      rw [he] at h
      cases hb : buildRecords embed files rid T with
      | error err => rw [hb] at h; cases h
      | ok rs =>
        rw [hb] at h
        simp only [Except.ok.injEq] at h
        subst h
        obtain ⟨h1, h2⟩ := ih rs hb
        refine ⟨by simp [h1], ?_⟩
        intro r hr
        rcases List.mem_cons.mp hr with h | h
        · subst h; rfl
        · exact h2 r h

/-- The queued entries of the scan, as a `filterMap`. -/
theorem scanFiles_fst (hash : List Nat → String) (decode : List Nat → String)
    (force : Bool) (ex : List (String × String)) :
    ∀ files : List FsFile,
      (scanFiles hash decode force ex files).1 = files.filterMap (fun f =>
        match scanFile hash decode force ex f with
        | .skip => none
        | .queue e => some e) := by
  intro files
  induction files with
  | nil => rfl
  | cons f rest ih =>
    simp only [scanFiles, List.filterMap_cons]
    cases h : scanFile hash decode force ex f <;> simp [h, ih]

/-- A queued file was readable and non-binary, and the entry carries its
path and hash. -/
theorem scanFile_queue_spec (hash : List Nat → String) (decode : List Nat → String)
    (force : Bool) (ex : List (String × String)) (f : FsFile) (e : ToIndexEntry)
    (h : scanFile hash decode force ex f = .queue e) :
    ∃ buffer, f.data = some buffer ∧ isBinary buffer = false ∧
      e.path = f.path ∧ e.hash = hash buffer := by
  unfold scanFile at h
  cases hd : f.data with
  | none => rw [hd] at h; cases h
  | some buffer =>
    rw [hd] at h
    simp only [] at h
    by_cases hb : isBinary buffer = true
    · rw [if_pos hb] at h; cases h
    · rw [if_neg hb] at h
      refine ⟨buffer, rfl, by simpa using hb, ?_, ?_⟩ <;>
      · by_cases hc : (decide (force = false) && (jsMapGet ex f.path == some (hash buffer))) = true
        · rw [if_pos hc] at h; cases h
        · rw [if_neg hc] at h
          cases h
          rfl

/-- A readable, non-binary file that scans to `skip` with `force = false`
matched the existing hash. -/
theorem scanFile_skip_hash (hash : List Nat → String) (decode : List Nat → String)
    (ex : List (String × String)) (f : FsFile) (buffer : List Nat)
    (hd : f.data = some buffer) (hb : isBinary buffer = false)
    (h : scanFile hash decode false ex f = .skip) :
    jsMapGet ex f.path = some (hash buffer) := by
  unfold scanFile at h
  rw [hd] at h
  simp only [] at h
  rw [if_neg (by simp [hb])] at h
  cases hc : (jsMapGet ex f.path == some (hash buffer)) with
  | true => exact eq_of_beq hc
  | false => simp [hc] at h

/-- When every file scans to `skip`, the scan queues nothing and counts
every file as skipped. -/
theorem scanFiles_all_skip (hash : List Nat → String) (decode : List Nat → String)
    (force : Bool) (ex : List (String × String)) :
    ∀ files : List FsFile,
      (∀ f ∈ files, scanFile hash decode force ex f = .skip) →
      scanFiles hash decode force ex files = ([], files.length) := by
  intro files
  induction files with
  | nil => intro _; rfl
  | cons f rest ih =>
    intro h
    have hf := h f (List.mem_cons_self f rest)
    have hr := ih (fun g hg => h g (List.mem_cons_of_mem f hg))
    simp [scanFiles, hr, hf]

/-- The queued paths are a sublist of the enumerated paths. -/
theorem scanFiles_paths_sublist (hash : List Nat → String) (decode : List Nat → String)
    (force : Bool) (ex : List (String × String)) :
    ∀ files : List FsFile,
      List.Sublist ((scanFiles hash decode force ex files).1.map (fun e => e.path))
        (files.map (fun f => f.path)) := by
  intro files
  rw [scanFiles_fst]
  induction files with
  | nil => simp
  | cons f rest ih =>
    rw [List.filterMap_cons]
    cases h : scanFile hash decode force ex f with
    | skip =>
      simp only [List.map_cons]
      exact List.Sublist.cons _ ih
    | queue e =>
      obtain ⟨buffer, _, _, hpath, _⟩ := scanFile_queue_spec hash decode force ex f e h
      simp only [List.map_cons, hpath]
      exact List.Sublist.cons₂ _ ih

/-- A queued entry comes from some enumerated file. -/
theorem scanFiles_mem_inv (hash : List Nat → String) (decode : List Nat → String)
    (force : Bool) (ex : List (String × String)) (files : List FsFile)
    (e : ToIndexEntry) (h : e ∈ (scanFiles hash decode force ex files).1) :
    ∃ f ∈ files, scanFile hash decode force ex f = .queue e := by
  rw [scanFiles_fst] at h
  obtain ⟨f, hf, hfe⟩ := List.mem_filterMap.mp h
  refine ⟨f, hf, ?_⟩
  cases hs : scanFile hash decode force ex f <;> rw [hs] at hfe
  · cases hfe
  · simpa using hfe

/-- A file that queues contributes its entry to the scan. -/
theorem scanFiles_mem (hash : List Nat → String) (decode : List Nat → String)
    (force : Bool) (ex : List (String × String)) (files : List FsFile)
    (f : FsFile) (e : ToIndexEntry) (hf : f ∈ files)
    (h : scanFile hash decode force ex f = .queue e) :
    e ∈ (scanFiles hash decode force ex files).1 := by
  rw [scanFiles_fst]
  exact List.mem_filterMap.mpr ⟨f, hf, by rw [h]⟩

/-- **C6.** Running full-scope ingestion twice in a row (with `force`
off) over the same enumeration — no filesystem changes between the runs
— makes the second run a no-op: it indexes 0 files and deletes 0 files
(every file is skipped), and the table is unchanged.  The enumeration is
assumed duplicate-free, as a filesystem walk is. -/
theorem indexRepo_idempotent (hash : List Nat → String) (decode : List Nat → String)
    (embed : String → Except IndexError (List Int)) (rid : String)
    (files : List FsFile) (tbl : FilesTable) (s1 : IndexSummary) (tbl1 : FilesTable)
    (hnd : (files.map (fun f => f.path)).Nodup)
    (h1 : indexRepo hash decode embed rid files tbl false = (.ok s1, tbl1)) :
    indexRepo hash decode embed rid files tbl1 false =
      (.ok ⟨rid, 0, 0, files.length, 0⟩, tbl1) := by
  simp only [indexRepo] at h1
  cases hsc : scanFiles hash decode false (exOf tbl rid) files with
  | mk T sk =>
  rw [hsc] at h1
  simp only [] at h1
  cases hbr : buildRecords embed files rid T with
  | error e =>
    rw [hbr] at h1
    simp at h1
  | ok recs =>
  rw [hbr] at h1
  simp only [Prod.mk.injEq, Except.ok.injEq] at h1
  obtain ⟨hs1, htbl1⟩ := h1
  -- Notation for the run-1 pieces.
  have hTsub : List.Sublist (T.map (fun e => e.path)) (files.map (fun f => f.path)) := by
    have h := scanFiles_paths_sublist hash decode false (exOf tbl rid) files
    rw [hsc] at h
    exact h
  have hTnodup : (T.map (fun e => e.path)).Nodup := hnd.sublist hTsub
  obtain ⟨hpairs, hrepo⟩ := buildRecords_ok embed files rid T recs hbr
  have hexrecs : exOf recs rid = T.map (fun e => (e.path, e.hash)) := by
    rw [exOf_all_rid recs rid hrepo, hpairs]
  -- The key fact: after run 1, every readable non-binary file's hash is
  -- the stored hash.
  have hkey : ∀ f ∈ files, ∀ buffer, f.data = some buffer → isBinary buffer = false →
      jsMapGet (exOf tbl1 rid) f.path = some (hash buffer) := by
    intro f hf buffer hd hb
    rw [← htbl1, exOf_append, jsMapGet_append]
    cases hscf : scanFile hash decode false (exOf tbl rid) f with
    | queue e =>
      obtain ⟨buffer2, hd2, hb2, hpath, hhash⟩ :=
        scanFile_queue_spec hash decode false (exOf tbl rid) f e hscf
      have hbuf : buffer2 = buffer := by
        rw [hd] at hd2
        exact (Option.some.injEq _ _).mp hd2.symm
      subst hbuf
      have hmemT : e ∈ T := by
        have h := scanFiles_mem hash decode false (exOf tbl rid) files f e hf hscf
        rw [hsc] at h
        exact h
      have hgr : jsMapGet (exOf recs rid) f.path = some (hash buffer2) := by
        apply jsMapGet_of_mem_nodup
        · rw [hexrecs, List.map_map]
          simpa [Function.comp] using hTnodup
        · rw [hexrecs]
          exact List.mem_map.mpr ⟨e, hmemT, by rw [hpath, hhash]⟩
      rw [hgr]
      rfl
    | skip =>
      have hhash := scanFile_skip_hash hash decode (exOf tbl rid) f buffer hd hb hscf
      have hnotin : f.path ∉ T.map (fun e => e.path) := by
        intro hin
        obtain ⟨e, he, hpe⟩ := List.mem_map.mp hin
        obtain ⟨f2, hf2, hscf2⟩ :=
          scanFiles_mem_inv hash decode false (exOf tbl rid) files e (by rw [hsc]; exact he)
        obtain ⟨buffer3, _, _, hpath3, _⟩ :=
          scanFile_queue_spec hash decode false (exOf tbl rid) f2 e hscf2
        have hff : f2 = f := by
          apply List.inj_on_of_nodup_map hnd hf2 hf
          rw [← hpath3]
          exact hpe
        rw [hff, hscf] at hscf2
        cases hscf2
      have hgrnone : jsMapGet (exOf recs rid) f.path = none := by
        apply jsMapGet_eq_none
        intro p hp hpk
        rw [hexrecs] at hp
        obtain ⟨e, he, hpe⟩ := List.mem_map.mp hp
        apply hnotin
        refine List.mem_map.mpr ⟨e, he, ?_⟩
        rw [← hpk, ← hpe]
      rw [hgrnone]
      have hor : ∀ x : Option String, (Option.or none x) = x := fun x => rfl
      rw [hor]
      have hnotD : ((jsMapKeys (exOf tbl rid)).filter
          (fun p => !((files.map (fun f => f.path)).contains p))).contains f.path = false := by
        by_contra hcon
        have hmemD : f.path ∈ (jsMapKeys (exOf tbl rid)).filter
            (fun p => !((files.map (fun f => f.path)).contains p)) := by
          cases hx : ((jsMapKeys (exOf tbl rid)).filter
              (fun p => !((files.map (fun f => f.path)).contains p))).contains f.path
          · exact absurd hx hcon
          · simpa [List.contains, List.elem_iff] using hx
        have := (List.mem_filter.mp hmemD).2
        simp only [Bool.not_eq_true'] at this
        have hfseen : f.path ∈ files.map (fun f => f.path) :=
          List.mem_map.mpr ⟨f, hf, rfl⟩
        rw [List.contains, List.elem_eq_true_of_mem hfseen] at this
        cases this
      have hnotT : (T.map (fun e => e.path)).contains f.path = false := by
        cases hx : (T.map (fun e => e.path)).contains f.path
        · rfl
        · exact absurd (by simpa [List.contains, List.elem_iff] using hx) hnotin
      rw [exOf_deleteIds, jsMapGet_filter_keep _ _ _ (fun p hp => by rw [hp, hnotT]; rfl),
        exOf_deleteIds, jsMapGet_filter_keep _ _ _ (fun p hp => by rw [hp, hnotD]; rfl)]
      exact hhash
  -- Every file scans to skip in run 2.
  have hallskip : ∀ f ∈ files, scanFile hash decode false (exOf tbl1 rid) f = .skip := by
    intro f hf
    unfold scanFile
    cases hd : f.data with
    | none => rfl
    | some buffer =>
      simp only []
      by_cases hb : isBinary buffer = true
      · rw [if_pos hb]
      · rw [if_neg hb]
        have hk := hkey f hf buffer hd (by simpa using hb)
        rw [if_pos (by simp [hk])]
  have hscan2 : scanFiles hash decode false (exOf tbl1 rid) files = ([], files.length) :=
    scanFiles_all_skip hash decode false (exOf tbl1 rid) files hallskip
  -- Nothing to delete in run 2.
  have htd2 : (jsMapKeys (exOf tbl1 rid)).filter
      (fun p => !((files.map (fun f => f.path)).contains p)) = [] := by
    rw [List.filter_eq_nil_iff]
    intro k hk
    have hk2 : k ∈ (exOf tbl1 rid).map Prod.fst := by
      unfold jsMapKeys at hk
      exact List.mem_dedup.mp hk
    obtain ⟨p, hp, hpk⟩ := List.mem_map.mp hk2
    unfold exOf at hp
    obtain ⟨r, hr, hrp⟩ := List.mem_map.mp hp
    have hrmem := (List.mem_filter.mp hr).1
    have hrrid : (r.repo == rid) = true := (List.mem_filter.mp hr).2
    have hkseen : k ∈ files.map (fun f => f.path) := by
      rw [← htbl1] at hrmem
      rcases List.mem_append.mp hrmem with hrb | hrc
      · -- survived both delete rounds: its path was seen
        have h1 := mem_deleteIds.mp hrb
        have h2 := mem_deleteIds.mp h1.1
        by_contra hnot
        have hrD : r.path ∈ (jsMapKeys (exOf tbl rid)).filter
            (fun p => !((files.map (fun f => f.path)).contains p)) := by
          apply List.mem_filter.mpr
          constructor
          · unfold jsMapKeys
            apply List.mem_dedup.mpr
            apply List.mem_map.mpr
            refine ⟨(r.path, r.hash), ?_, rfl⟩
            unfold exOf
            apply List.mem_map.mpr
            refine ⟨r, ?_, rfl⟩
            exact List.mem_filter.mpr ⟨h2.1, hrrid⟩
          · have hkr : r.path = k := by rw [← hpk, ← hrp]
            rw [hkr]
            cases hx : (files.map (fun f => f.path)).contains k
            · rfl
            · exact absurd (by simpa [List.contains, List.elem_iff] using hx) hnot
        have := h2.2
        have hkr : r.path = k := by rw [← hpk, ← hrp]
        rw [hrrid] at this
        simp only [Bool.true_and, Bool.not_eq_true'] at this
        rw [List.contains, List.elem_eq_true_of_mem hrD] at this
        cases this
      · -- an inserted record: its path is a queued path
        have : r.path ∈ T.map (fun e => e.path) := by
          have hpr : (r.path, r.hash) ∈ T.map (fun e => (e.path, e.hash)) := by
            rw [← hpairs]
            exact List.mem_map.mpr ⟨r, hrc, rfl⟩
          obtain ⟨e, he, hpe⟩ := List.mem_map.mp hpr
          apply List.mem_map.mpr
          exact ⟨e, he, by rw [← (Prod.mk.injEq _ _ _ _).mp hpe |>.1]⟩
        have hsub := hTsub.mem this
        have hkr : r.path = k := by rw [← hpk, ← hrp]
        rw [← hkr]
        exact hsub
    simp only [Bool.not_eq_true']
    rw [List.contains, List.elem_eq_true_of_mem hkseen]
    simp
  -- Assemble run 2.
  simp only [indexRepo, hscan2, htd2, List.map_nil, deleteIds, List.foldl_nil,
    buildRecords, List.append_nil, List.length_nil]

/-- A tiny deterministic stand-in for SHA-256 in the C6 witness. -/
def hashW : List Nat → String :=
  fun b => toString (b.foldl (fun a x => 2 * a + x) 1)

/-- A byte-to-text decoder for the C6 witness. -/
def decodeW : List Nat → String :=
  fun b => String.mk (b.map (fun n => Char.ofNat n))

/-- A one-dimensional embedding for the C6 witness. -/
def embedW : String → Except IndexError (List Int) :=
  fun s => .ok [(s.length : Int)]

/-- Two enumerated files: a readable text file and a binary file. -/
def filesW : List FsFile :=
  [⟨"a.txt", some [104, 105], 2, 0⟩, ⟨"b.bin", some [0, 1], 2, 0⟩]

/-- The record the first ingestion of `filesW` produces. -/
def recW : FileRecord := ⟨"a", "a.txt", "a.txt", "hi", 0, 2, "317", [2]⟩

set_option maxRecDepth 40000 in
/-- Witness for C6: over an empty table, the first full ingestion of
`filesW` indexes the text file and skips the binary; the second run
indexes 0, deletes 0 and skips both files, leaving the table as is. -/
theorem indexRepo_idempotent_witness :
    (filesW.map (fun f => f.path)).Nodup ∧
    indexRepo hashW decodeW embedW "a" filesW [] false =
      (.ok ⟨"a", 1, 0, 1, 0⟩, [recW]) ∧
    indexRepo hashW decodeW embedW "a" filesW [recW] false =
      (.ok ⟨"a", 0, 0, 2, 0⟩, [recW]) :=
  ⟨by decide, by rfl,
    indexRepo_idempotent hashW decodeW embedW "a" filesW [] ⟨"a", 1, 0, 1, 0⟩ [recW]
      (by decide) (by rfl)⟩

end Repobase
